import Mathlib

/-!
Shallow embedding of the statrs gamma-distribution and beta-function code
(`src/distribution/gamma.rs`, `src/function/beta.rs`).

Values of the generic `T: Float` type are modelled as real numbers extended
with the IEEE special values (type `Fl`): arithmetic on `Fl` follows the
IEEE-754 conventions for the special values and is exact real arithmetic on
finite values.  Panicking `assert!` macros are modelled by the `Except`
error channel with the `Panic` payload (fatal, unrecoverable contract
violations); the recoverable `Result` channel of `Gamma::new` uses the
separate `StatsError` payload.  The continued-fraction kernel `beta_reg`,
whose data path the claims exercise only on finite real values, is embedded
directly over the reals.
-/

noncomputable section
open Classical

/-- Model of a floating-point value: a real number or one of the IEEE
special values (`NaN`, plus infinity, minus infinity). -/
inductive Fl where
  | nan : Fl
  | pinf : Fl
  | ninf : Fl
  | fin : ℝ → Fl

/-- IEEE strict less-than on `Fl`: every comparison involving `NaN` is false. -/
def Fl.lt : Fl → Fl → Prop
  | .nan, _ => False
  | _, .nan => False
  | .pinf, _ => False
  | .ninf, .ninf => False
  | .ninf, _ => True
  | .fin _, .pinf => True
  | .fin _, .ninf => False
  | .fin a, .fin b => a < b

/-- IEEE less-or-equal on `Fl`: every comparison involving `NaN` is false. -/
def Fl.le : Fl → Fl → Prop
  | .nan, _ => False
  | _, .nan => False
  | .pinf, .pinf => True
  | .pinf, _ => False
  | .ninf, _ => True
  | .fin _, .pinf => True
  | .fin _, .ninf => False
  | .fin a, .fin b => a ≤ b

/-- IEEE equality (`==`) on `Fl`: `NaN` compares unequal to everything. -/
def Fl.feq : Fl → Fl → Prop
  | .nan, _ => False
  | _, .nan => False
  | .pinf, .pinf => True
  | .pinf, _ => False
  | .ninf, .ninf => True
  | .ninf, _ => False
  | .fin a, .fin b => a = b
  | .fin _, _ => False

/-- The `is_nan` test. -/
def Fl.isNan : Fl → Prop
  | .nan => True
  | _ => False

/-- IEEE negation. -/
def Fl.neg : Fl → Fl
  | .nan => .nan
  | .pinf => .ninf
  | .ninf => .pinf
  | .fin a => .fin (-a)

/-- IEEE addition (`inf + -inf = NaN`, exact on finite values). -/
def Fl.add : Fl → Fl → Fl
  | .nan, _ => .nan
  | _, .nan => .nan
  | .pinf, .ninf => .nan
  | .ninf, .pinf => .nan
  | .pinf, _ => .pinf
  | _, .pinf => .pinf
  | .ninf, _ => .ninf
  | _, .ninf => .ninf
  | .fin a, .fin b => .fin (a + b)

/-- IEEE multiplication (`inf * 0 = NaN`, sign-aware infinities). -/
def Fl.mul : Fl → Fl → Fl
  | .nan, _ => .nan
  | _, .nan => .nan
  | .pinf, .pinf => .pinf
  | .pinf, .ninf => .ninf
  | .ninf, .pinf => .ninf
  | .ninf, .ninf => .pinf
  | .pinf, .fin b => if 0 < b then .pinf else if b < 0 then .ninf else .nan
  | .fin a, .pinf => if 0 < a then .pinf else if a < 0 then .ninf else .nan
  | .ninf, .fin b => if 0 < b then .ninf else if b < 0 then .pinf else .nan
  | .fin a, .ninf => if 0 < a then .ninf else if a < 0 then .pinf else .nan
  | .fin a, .fin b => .fin (a * b)

/-- IEEE division (single-zero model, zero taken with positive sign). -/
def Fl.div : Fl → Fl → Fl
  | .nan, _ => .nan
  | _, .nan => .nan
  | .pinf, .pinf => .nan
  | .pinf, .ninf => .nan
  | .ninf, .pinf => .nan
  | .ninf, .ninf => .nan
  | .pinf, .fin b => if 0 ≤ b then .pinf else .ninf
  | .ninf, .fin b => if 0 ≤ b then .ninf else .pinf
  | .fin _, .pinf => .fin 0
  | .fin _, .ninf => .fin 0
  | .fin a, .fin b =>
      if b = 0 then (if a = 0 then .nan else if 0 < a then .pinf else .ninf)
      else .fin (a / b)

/-- IEEE exponential (`exp(-inf) = 0`, `exp(inf) = inf`). -/
def Fl.exp : Fl → Fl
  | .nan => .nan
  | .pinf => .pinf
  | .ninf => .fin 0
  | .fin a => .fin (Real.exp a)

/-- IEEE natural logarithm (`ln 0 = -inf`, negative arguments give `NaN`). -/
def Fl.ln : Fl → Fl
  | .nan => .nan
  | .pinf => .pinf
  | .ninf => .nan
  | .fin a => if 0 < a then .fin (Real.log a) else if a = 0 then .ninf else .nan

/-- IEEE square root. -/
def Fl.sqrt : Fl → Fl
  | .nan => .nan
  | .pinf => .pinf
  | .ninf => .nan
  | .fin a => if 0 ≤ a then .fin (Real.sqrt a) else .nan

/-- Model of the external `num::Float::powf` (IEEE `pow`); on positive finite
bases it is the real power, the negative-finite-base corner (never reached
by the code on its asserted domains) is modelled as `NaN`. -/
def Fl.powf : Fl → Fl → Fl
  | .nan, _ => .nan
  | _, .nan => .nan
  | .fin a, .fin b =>
      if 0 < a then .fin (a ^ b)
      else if a = 0 then (if 0 < b then .fin 0 else if b = 0 then .fin 1 else .pinf)
      else .nan
  | .pinf, .fin b => if 0 < b then .pinf else if b = 0 then .fin 1 else .fin 0
  | .ninf, .fin _ => .nan
  | .fin a, .pinf => if 1 < a then .pinf else if a = 1 then .fin 1 else if 0 ≤ a then .fin 0 else .nan
  | .fin a, .ninf => if 1 < a then .fin 0 else if a = 1 then .fin 1 else if 0 ≤ a then .pinf else .nan
  | .pinf, .pinf => .pinf
  | .pinf, .ninf => .fin 0
  | .ninf, .pinf => .nan
  | .ninf, .ninf => .nan

instance : Zero Fl := ⟨Fl.fin 0⟩

instance : One Fl := ⟨Fl.fin 1⟩

instance : Neg Fl := ⟨Fl.neg⟩

instance : Add Fl := ⟨Fl.add⟩

instance : Sub Fl := ⟨fun a b => Fl.add a (Fl.neg b)⟩

instance : Mul Fl := ⟨Fl.mul⟩

instance : Div Fl := ⟨Fl.div⟩

/-- Modelled from the spec: `function/gamma.rs` is not part of the excerpted
source; per the spec, `ln_gamma` computes the natural logarithm of the gamma
function (there by a Lanczos-type approximation, modelled here exactly). -/
def lnGammaR (s : ℝ) : ℝ := Real.log (Real.Gamma s)

/-- Modelled from the spec: lift of the missing `ln_gamma` to the float
model (`ln_gamma` diverges to infinity at infinity). -/
def Fl.lnGamma : Fl → Fl
  | .fin a => .fin (lnGammaR a)
  | .pinf => .pinf
  | _ => .nan

/-- Modelled from the spec: `gamma(x) = exp(ln_gamma(x))`. -/
def Fl.gammaFn (x : Fl) : Fl := Fl.exp (Fl.lnGamma x)

/-- Modelled from the spec: the regularized lower incomplete gamma function
`P(a, x)` provided by the missing `function/gamma.rs`. -/
def gammaLrR (a x : ℝ) : ℝ :=
  (∫ t in Set.Ioc (0 : ℝ) x, t ^ (a - 1) * Real.exp (-t)) / Real.Gamma a

/-- Modelled from the spec: lift of the missing `gamma_lr` to the float
model (the claims only constrain it on finite arguments). -/
def Fl.gammaLr : Fl → Fl → Fl
  | .fin a, .fin x => .fin (gammaLrR a x)
  | _, _ => .nan

/-- Payload of an unrecoverable `assert!` failure (a panic, fatal contract
violation); the variants mirror the `StatsError` display values interpolated
into the panic messages, each naming the violated argument. -/
inductive Panic where
  | argMustBePositive (arg : String) : Panic
  | argNotNegative (arg : String) : Panic
  | argIntervalIncl (arg : String) (lo hi : ℝ) : Panic

/-- Recoverable error channel of `Gamma::new` (`StatsError::BadParams`). -/
inductive StatsError where
  | badParams : StatsError

/-- The `Gamma<T>` struct of `src/distribution/gamma.rs`; the structure
fields play the role of the `shape()` and `rate()` accessor methods. -/
structure Gamma where
  shape : Fl
  rate : Fl

/-- `valid_gamma_parameters` of `src/distribution/gamma.rs` (lines 466-476). -/
def valid_gamma_parameters (shape rate : Fl) : Prop :=
  if shape.isNan ∨ rate.isNan then False
  else if Fl.le shape 0 ∨ Fl.le rate 0 then False
  else True

/-- `Gamma::new` of `src/distribution/gamma.rs` (lines 53-62). -/
def Gamma.new (shape rate : Fl) : Except StatsError Gamma :=
  if valid_gamma_parameters shape rate then .ok ⟨shape, rate⟩
  else .error .badParams

/-- `Continuous::ln_pdf` for `Gamma` (`gamma.rs` lines 398-411). -/
def Gamma.ln_pdf (g : Gamma) (x : Fl) : Except Panic Fl :=
  if ¬ Fl.lt 0 x then .error (.argMustBePositive "x")
  else if Fl.feq x g.shape ∧ Fl.feq g.rate .pinf then .ok .pinf
  else if Fl.feq g.rate .pinf then .ok .ninf
  else if Fl.feq g.shape 1 then .ok (Fl.ln g.rate - g.rate * x)
  else .ok (g.shape * Fl.ln g.rate + (g.shape - 1) * Fl.ln x - g.rate * x
      - Fl.lnGamma g.shape)

/-- `Continuous::pdf` for `Gamma` (`gamma.rs` lines 362-377). -/
def Gamma.pdf (g : Gamma) (x : Fl) : Except Panic Fl :=
  if ¬ Fl.lt 0 x then .error (.argMustBePositive "x")
  else if Fl.feq x g.shape ∧ Fl.feq g.rate .pinf then .ok .pinf
  else if Fl.feq g.rate .pinf then .ok 0
  else if Fl.feq g.shape 1 then .ok (g.rate * Fl.exp (-(g.rate * x)))
  else if Fl.lt (Fl.fin 160) g.shape then (g.ln_pdf x).map Fl.exp
  else .ok (Fl.powf g.rate g.shape * Fl.powf x (g.shape - 1)
      * Fl.exp (-(g.rate * x)) / Fl.gammaFn g.shape)

/-- `Univariate::cdf` for `Gamma` (`gamma.rs` lines 167-177). -/
def Gamma.cdf (g : Gamma) (x : Fl) : Except Panic Fl :=
  if ¬ Fl.lt 0 x then .error (.argMustBePositive "x")
  else if Fl.feq x g.shape ∧ Fl.feq g.rate .pinf then .ok 1
  else if Fl.feq g.rate .pinf then .ok 0
  else .ok (Fl.gammaLr g.shape (x * g.rate))

/-- Stream model of the caller-supplied random source: a stream of
standard-normal draws (consumed by the external `normal::sample_unchecked`,
modelled from the spec as producing one normal draw per call) and a stream
of uniform draws (consumed by `r.gen()`), with cursor indices. -/
structure Rng where
  normals : ℕ → ℝ
  uniforms : ℕ → ℝ
  nIdx : ℕ
  uIdx : ℕ

/-- Modelled from the spec: one call of the external standard-normal
generator consumes and returns the next normal draw. -/
def Rng.nextNormal (r : Rng) : Fl × Rng :=
  (Fl.fin (r.normals r.nIdx), { r with nIdx := r.nIdx + 1 })

/-- One call of `r.gen::<T>()` consumes and returns the next uniform draw. -/
def Rng.nextUniform (r : Rng) : Fl × Rng :=
  (Fl.fin (r.uniforms r.uIdx), { r with uIdx := r.uIdx + 1 })

/-- The inner redraw loop of `sample_unchecked` (`gamma.rs` lines 445-450):
draw a normal `x`, form `v = 1 + c * x`, redraw while `v <= 0`.  Fuelled,
since the Rust loop is unbounded. -/
def drawV (c : Fl) : ℕ → Rng → Option (Fl × Fl × Rng)
  | 0, _ => none
  | fuel + 1, r =>
    let p := r.nextNormal
    let v := 1 + c * p.1
    if Fl.le v 0 then drawV c fuel p.2 else some (p.1, v, p.2)

/-- The outer Marsaglia-Tsang rejection loop of `sample_unchecked`
(`gamma.rs` lines 444-461), fuelled since the Rust loop is unbounded.
The second acceptance test is transcribed exactly as written in the source:
`u.ln() < 0.5 * x + d * (1 - v - v.ln())`. -/
def mtLoop (rate afix d c : Fl) : ℕ → ℕ → Rng → Option (Fl × Rng)
  | 0, _, _ => none
  | fuel + 1, innerFuel, r =>
    match drawV c innerFuel r with
    | none => none
    | some (x0, v0, r1) =>
      let v := v0 * v0 * v0
      let x := x0 * x0
      let p := r1.nextUniform
      if Fl.lt p.1 (1 - Fl.fin (331/10000) * x * x) then
        some (afix * d * v / rate, p.2)
      else if Fl.lt (Fl.ln p.1) (Fl.fin (1/2) * x + d * (1 - v - Fl.ln v)) then
        some (afix * d * v / rate, p.2)
      else mtLoop rate afix d c fuel innerFuel p.2

/-- `sample_unchecked` of `src/distribution/gamma.rs` (lines 424-462). -/
def sample_unchecked (outerFuel innerFuel : ℕ) (r : Rng) (shape rate : Fl) :
    Option (Fl × Rng) :=
  if Fl.feq rate Fl.pinf then some (shape, r)
  else
    let a := if Fl.lt shape 1 then shape + 1 else shape
    let afr : Fl × Rng :=
      if Fl.lt shape 1 then
        let p := r.nextUniform
        (Fl.powf p.1 (1 / shape), p.2)
      else (1, r)
    let d := a - Fl.fin (1/3)
    let c := 1 / Fl.sqrt (Fl.fin 9 * d)
    mtLoop rate afr.1 d c outerFuel innerFuel afr.2

/-- `Distribution::sample` for `Gamma` (`gamma.rs` lines 144-146). -/
def Gamma.sample (g : Gamma) (outerFuel innerFuel : ℕ) (r : Rng) :
    Option (Fl × Rng) :=
  sample_unchecked outerFuel innerFuel r g.shape g.rate

/-- `ln_beta` of `src/function/beta.rs` (lines 19-27), embedded over the
reals (the generic float type instantiated with exact real semantics). -/
def ln_beta (a b : ℝ) : Except Panic ℝ :=
  if ¬ 0 < a then .error (.argMustBePositive "a")
  else if ¬ 0 < b then .error (.argMustBePositive "b")
  else .ok (lnGammaR a + lnGammaR b - lnGammaR (a + b))

/-- `beta` of `src/function/beta.rs` (lines 37-41): `ln_beta(a, b).exp()`,
propagating the panic of `ln_beta`. -/
def beta (a b : ℝ) : Except Panic ℝ := (ln_beta a b).map Real.exp

/-- State of the modified-Lentz continued fraction in `beta_reg`: the
convergents `c` and `d` (the latter stored already inverted, as in the
source), the accumulated product `h`, and the last fractional update
`del = d * c`. -/
structure BetaCf where
  c : ℝ
  d : ℝ
  h : ℝ
  del : ℝ

/-- The near-zero floor `if v.abs() < fpmin { fpmin } else { v }`. -/
def floorSmall (fpmin v : ℝ) : ℝ := if |v| < fpmin then fpmin else v

/-- One iteration of the `for m in 1..141` loop body of `beta_reg`
(`beta.rs` lines 109-150): two Lentz fraction steps. -/
def betaCfStep (fpmin a b x : ℝ) (m : ℕ) (s : BetaCf) : BetaCf :=
  let qab := a + b
  let qap := a + 1
  let qam := a - 1
  let mr : ℝ := (m : ℝ)
  let m2 := mr * 2
  let aa1 := mr * (b - mr) * x / ((qam + m2) * (a + m2))
  let d1 := 1 / floorSmall fpmin (1 + aa1 * s.d)
  let c1 := floorSmall fpmin (1 + aa1 / s.c)
  let h1 := s.h * d1 * c1
  let aa2 := -(a + mr) * (qab + mr) * x / ((a + m2) * (qap + m2))
  let d2 := 1 / floorSmall fpmin (1 + aa2 * d1)
  let c2 := floorSmall fpmin (1 + aa2 / c1)
  let del := d2 * c2
  ⟨c2, d2, h1 * del, del⟩

/-- The capped continued-fraction loop: run at most `fuel` iterations
starting at index `m`, returning the number of iterations actually executed
and the final state; stops as soon as `|del - 1| <= eps`. -/
def betaCfRun (eps fpmin a b x : ℝ) : ℕ → ℕ → BetaCf → ℕ × BetaCf
  | 0, _, s => (0, s)
  | fuel + 1, m, s =>
    let s1 := betaCfStep fpmin a b x m s
    if |s1.del - 1| ≤ eps then (1, s1)
    else
      let r := betaCfRun eps fpmin a b x fuel (m + 1) s1
      (r.1 + 1, r.2)

/-- The symmetry transform of `beta_reg` (`beta.rs` lines 83-95): when
`x >= (a + 1) / (a + b + 2)`, swap `a` and `b` and replace `x` by `1 - x`. -/
def betaRegSwap (a b x : ℝ) : ℝ × ℝ × ℝ :=
  if (a + 1) / (a + b + 2) ≤ x then (b, a, 1 - x) else (a, b, x)

/-- The `bt` prefactor of `beta_reg` (`beta.rs` lines 76-82), computed from
the untransformed arguments. -/
def betaRegBt (a b x : ℝ) : ℝ :=
  if x = 0 ∨ x = 1 then 0
  else Real.exp (lnGammaR (a + b) - lnGammaR a - lnGammaR b
      + a * Real.log x + b * Real.log (1 - x))

/-- The initial Lentz state of `beta_reg` (`beta.rs` lines 100-107):
`c = 1`, `d = 1 / floor(1 - qab * x / qap)`, `h = d`. -/
def betaRegInit (fpmin a b x : ℝ) : BetaCf :=
  let d0 := floorSmall fpmin (1 - (a + b) * x / (a + 1))
  ⟨1, 1 / d0, 1 / d0, 0⟩

/-- The continued-fraction run of `beta_reg` on the (already transformed)
arguments, with the fixed iteration cap of 140. -/
def betaRegCore (eps fpmin a b x : ℝ) : ℕ × BetaCf :=
  betaCfRun eps fpmin a b x 140 1 (betaRegInit fpmin a b x)

/-- `beta_reg` of `src/function/beta.rs` (lines 66-157).  The parameters
`eps` and `fpmin` model the type-dependent constants `T::precision()` and
`T::min_positive_value() / eps`. -/
def beta_reg (eps fpmin a b x : ℝ) : Except Panic ℝ :=
  if ¬ 0 ≤ a then .error (.argNotNegative "a")
  else if ¬ 0 ≤ b then .error (.argNotNegative "b")
  else if ¬ (0 ≤ x ∧ x ≤ 1) then .error (.argIntervalIncl "x" 0 1)
  else
    let s := betaRegSwap a b x
    let r := betaRegCore eps fpmin s.1 s.2.1 s.2.2
    if (a + 1) / (a + b + 2) ≤ x then .ok (1 - betaRegBt a b x * r.2.h / s.1)
    else .ok (betaRegBt a b x * r.2.h / s.1)

/-- Acceptance predicate of Marsaglia-Tsang step (e) exactly as the spec and
claim C1 word it: `ln(u) < 0.5 * x + d * (1 - v + ln(v))`, with `x` the
squared original normal draw and `v` the cube. -/
def mtAcceptSpec (d v x u : ℝ) : Prop :=
  Real.log u < 1/2 * x + d * (1 - v + Real.log v)

/-- Squeeze test of Marsaglia-Tsang step (d) as the spec words it. -/
def mtSqueeze (x u : ℝ) : Prop := u < 1 - 331/10000 * x * x

/-- Concrete value `2 ^ (-1/3)` used in the claim C1 failing input. -/
def c1s : ℝ := (2 : ℝ) ^ (-(1/3) : ℝ)

/-- The normal draw of the claim C1 failing input: chosen so that the Lentz
candidate `v = (1 + c * n)^3` equals `1/2` when the shape is `7/3`. -/
def c1n : ℝ := (c1s - 1) * Real.sqrt 18

/-- The squared normal draw of the claim C1 failing input. -/
def c1x : ℝ := 18 * (1 - c1s) ^ 2

/-- The uniform draw of the claim C1 failing input. -/
def c1u : ℝ := Real.exp (-(1/1000))

/-- The random source of the claim C1 failing input: constant streams. -/
def c1rng : Rng := ⟨fun _ => c1n, fun _ => c1u, 0, 0⟩

theorem Fl.zero_def : (0 : Fl) = Fl.fin 0 := rfl

theorem Fl.one_def : (1 : Fl) = Fl.fin 1 := rfl

theorem Fl.add_def (a b : Fl) : a + b = Fl.add a b := rfl

theorem Fl.sub_def (a b : Fl) : a - b = Fl.add a (Fl.neg b) := rfl

theorem Fl.neg_def (a : Fl) : -a = Fl.neg a := rfl

theorem Fl.mul_def (a b : Fl) : a * b = Fl.mul a b := rfl

theorem Fl.div_def (a b : Fl) : a / b = Fl.div a b := rfl

/-- Values strictly above `0` in the float order are `+inf` or positive
finite reals. -/
theorem Fl.pos_elim (x : Fl) (h : Fl.lt 0 x) :
    x = Fl.pinf ∨ ∃ a : ℝ, x = Fl.fin a ∧ 0 < a := by
  cases x with
  | nan => simp [Fl.lt, Fl.zero_def] at h
  | pinf => exact Or.inl rfl
  | ninf => simp [Fl.lt, Fl.zero_def] at h
  | fin a => exact Or.inr ⟨a, rfl, by simpa [Fl.lt, Fl.zero_def] using h⟩

/-- Unfolding characterization of `valid_gamma_parameters`. -/
theorem valid_gamma_parameters_iff (shape rate : Fl) :
    valid_gamma_parameters shape rate ↔
      ¬ shape.isNan ∧ ¬ rate.isNan ∧ ¬ Fl.le shape 0 ∧ ¬ Fl.le rate 0 := by
  unfold valid_gamma_parameters
  by_cases h1 : shape.isNan ∨ rate.isNan
  · rw [if_pos h1]
    constructor
    · exact fun h => h.elim
    · rintro ⟨hs, hr, _, _⟩
      rcases h1 with h | h
      exacts [hs h, hr h]
  · rw [if_neg h1]
    by_cases h2 : Fl.le shape 0 ∨ Fl.le rate 0
    · rw [if_pos h2]
      constructor
      · exact fun h => h.elim
      · rintro ⟨_, _, h0s, h0r⟩
        rcases h2 with h | h
        exacts [h0s h, h0r h]
    · rw [if_neg h2]
      rw [not_or] at h1 h2
      exact ⟨fun _ => ⟨h1.1, h1.2, h2.1, h2.2⟩, fun _ => trivial⟩

/-- Claim C9: when the rate is positive infinity, sampling returns the shape
immediately, with the random source completely untouched (no uniform and no
normal draw is consumed). -/
theorem sample_inf_rate_returns_shape (shape : Fl) (outerFuel innerFuel : ℕ)
    (r : Rng) :
    Gamma.sample ⟨shape, Fl.pinf⟩ outerFuel innerFuel r = some (shape, r) := by
  simp [Gamma.sample, sample_unchecked, Fl.feq]

/-- Claim C5: `Gamma::new` fails with the bad-parameters error exactly when
an argument is `NaN` or non-positive, and in every other case succeeds,
storing both arguments unchanged, the accessors returning them exactly. -/
theorem gamma_new_spec (shape rate : Fl) :
    (Gamma.new shape rate = .error .badParams ↔
      (shape.isNan ∨ rate.isNan ∨ Fl.le shape 0 ∨ Fl.le rate 0)) ∧
    (Gamma.new shape rate = .error .badParams ∨
      (Gamma.new shape rate = .ok ⟨shape, rate⟩ ∧
        (Gamma.mk shape rate).shape = shape ∧
        (Gamma.mk shape rate).rate = rate)) := by
  have herr : (Gamma.new shape rate = .error .badParams) ↔
      ¬ valid_gamma_parameters shape rate := by
    unfold Gamma.new
    by_cases hv : valid_gamma_parameters shape rate
    · rw [if_pos hv]; simp [hv]
    · rw [if_neg hv]; simp [hv]
  constructor
  · rw [herr, valid_gamma_parameters_iff]
    tauto
  · by_cases hv : valid_gamma_parameters shape rate
    · right
      refine ⟨?_, rfl, rfl⟩
      unfold Gamma.new
      rw [if_pos hv]
    · left
      unfold Gamma.new
      rw [if_neg hv]

/-- Counterexample to claim C2 as stated: the constructor accepts an
infinite shape, so a successfully produced distribution can have
`shape == +infinity`. -/
theorem gamma_new_accepts_infinite_shape :
    Gamma.new Fl.pinf (Fl.fin 1) = .ok ⟨Fl.pinf, Fl.fin 1⟩ ∧
    (Gamma.mk Fl.pinf (Fl.fin 1)).shape = Fl.pinf := by
  refine ⟨?_, rfl⟩
  have hv : valid_gamma_parameters Fl.pinf (Fl.fin 1) := by
    rw [valid_gamma_parameters_iff]
    refine ⟨?_, ?_, ?_, ?_⟩ <;> norm_num [Fl.isNan, Fl.le, Fl.zero_def]
  unfold Gamma.new
  rw [if_pos hv]

/-- Claim C2 amended: every distribution successfully produced by the
constructor stores both arguments unchanged, and both are non-NaN and
strictly positive; either parameter (the shape included) may be positive
infinity. -/
theorem gamma_new_invariant (shape rate : Fl) (g : Gamma)
    (h : Gamma.new shape rate = .ok g) :
    g = ⟨shape, rate⟩ ∧ ¬ shape.isNan ∧ ¬ rate.isNan ∧
      Fl.lt 0 shape ∧ Fl.lt 0 rate := by
  unfold Gamma.new at h
  by_cases hv : valid_gamma_parameters shape rate
  · rw [if_pos hv] at h
    obtain ⟨hs, hr, hs0, hr0⟩ := (valid_gamma_parameters_iff shape rate).mp hv
    refine ⟨(Except.ok.inj h).symm, hs, hr, ?_, ?_⟩
    · cases shape with
      | nan => simp [Fl.isNan] at hs
      | pinf => simp [Fl.lt, Fl.zero_def]
      | ninf => exact absurd (by simp [Fl.le, Fl.zero_def]) hs0
      | fin a =>
        simp only [Fl.le, Fl.zero_def] at hs0
        simp only [Fl.lt, Fl.zero_def]
        exact lt_of_not_le hs0
    · cases rate with
      | nan => simp [Fl.isNan] at hr
      | pinf => simp [Fl.lt, Fl.zero_def]
      | ninf => exact absurd (by simp [Fl.le, Fl.zero_def]) hr0
      | fin a =>
        simp only [Fl.le, Fl.zero_def] at hr0
        simp only [Fl.lt, Fl.zero_def]
        exact lt_of_not_le hr0
  · rw [if_neg hv] at h
    cases h

/-- Witness for the amended claim C2 at the concrete input `(3, 1)`. -/
theorem gamma_new_invariant_witness :
    Gamma.mk (Fl.fin 3) (Fl.fin 1) = ⟨Fl.fin 3, Fl.fin 1⟩ ∧
      ¬ (Fl.fin 3).isNan ∧ ¬ (Fl.fin 1).isNan ∧
      Fl.lt 0 (Fl.fin 3) ∧ Fl.lt 0 (Fl.fin 1) :=
  gamma_new_invariant (Fl.fin 3) (Fl.fin 1) ⟨Fl.fin 3, Fl.fin 1⟩
    (by
      have hv : valid_gamma_parameters (Fl.fin 3) (Fl.fin 1) := by
        rw [valid_gamma_parameters_iff]
        refine ⟨?_, ?_, ?_, ?_⟩ <;> norm_num [Fl.isNan, Fl.le, Fl.zero_def]
      unfold Gamma.new
      rw [if_pos hv])

/-- Claim C4: for a valid distribution and `x > 0`, `cdf` returns 1 at the
degenerate point (`x == shape`, `rate == +infinity`), 0 elsewhere when the
rate is infinite, and otherwise the regularized lower incomplete gamma
function at the rate-scaled point. -/
theorem gamma_cdf_spec (shape rate x : Fl)
    (hs : Fl.lt 0 shape) (hr : Fl.lt 0 rate) (hx : Fl.lt 0 x) :
    (Fl.feq x shape ∧ Fl.feq rate Fl.pinf →
      Gamma.cdf ⟨shape, rate⟩ x = .ok 1) ∧
    (Fl.feq rate Fl.pinf ∧ ¬ Fl.feq x shape →
      Gamma.cdf ⟨shape, rate⟩ x = .ok 0) ∧
    (¬ Fl.feq rate Fl.pinf →
      Gamma.cdf ⟨shape, rate⟩ x = .ok (Fl.gammaLr shape (x * rate))) := by
  have hx' : ¬ ¬ Fl.lt 0 x := not_not_intro hx
  refine ⟨?_, ?_, ?_⟩
  · rintro ⟨h1, h2⟩
    unfold Gamma.cdf
    rw [if_neg hx', if_pos (show Fl.feq x (Gamma.mk shape rate).shape ∧
      Fl.feq (Gamma.mk shape rate).rate Fl.pinf from ⟨h1, h2⟩)]
  · rintro ⟨h2, h1⟩
    unfold Gamma.cdf
    rw [if_neg hx',
      if_neg (show ¬ (Fl.feq x (Gamma.mk shape rate).shape ∧
        Fl.feq (Gamma.mk shape rate).rate Fl.pinf) from fun hc => h1 hc.1),
      if_pos (show Fl.feq (Gamma.mk shape rate).rate Fl.pinf from h2)]
  · intro h2
    unfold Gamma.cdf
    rw [if_neg hx',
      if_neg (show ¬ (Fl.feq x (Gamma.mk shape rate).shape ∧
        Fl.feq (Gamma.mk shape rate).rate Fl.pinf) from fun hc => h2 hc.2),
      if_neg (show ¬ Fl.feq (Gamma.mk shape rate).rate Fl.pinf from h2)]

/-- Witness for claim C4 at shape 10, rate 2, x 3 (the general branch). -/
theorem gamma_cdf_spec_witness :
    Gamma.cdf ⟨Fl.fin 10, Fl.fin 2⟩ (Fl.fin 3) =
      .ok (Fl.gammaLr (Fl.fin 10) (Fl.fin 3 * Fl.fin 2)) :=
  (gamma_cdf_spec (Fl.fin 10) (Fl.fin 2) (Fl.fin 3)
    (by norm_num [Fl.lt, Fl.zero_def]) (by norm_num [Fl.lt, Fl.zero_def])
    (by norm_num [Fl.lt, Fl.zero_def])).2.2 (by simp [Fl.feq])

/-- When `x > 0` the `ln_pdf` assertion passes and the function returns a
value on every branch. -/
theorem Gamma.ln_pdf_ok (g : Gamma) (x : Fl) (hx : Fl.lt 0 x) :
    ∃ y, g.ln_pdf x = .ok y := by
  unfold Gamma.ln_pdf
  rw [if_neg (not_not_intro hx)]
  split_ifs <;> exact ⟨_, rfl⟩

/-- When `x > 0` the `pdf` assertion passes and the function returns a value
on every branch. -/
theorem Gamma.pdf_ok (g : Gamma) (x : Fl) (hx : Fl.lt 0 x) :
    ∃ y, g.pdf x = .ok y := by
  unfold Gamma.pdf
  rw [if_neg (not_not_intro hx)]
  obtain ⟨l, hl⟩ := Gamma.ln_pdf_ok g x hx
  split_ifs <;> first
    | exact ⟨_, rfl⟩
    | exact ⟨Fl.exp l, by rw [hl]; rfl⟩

/-- When `x > 0` the `cdf` assertion passes and the function returns a value
on every branch. -/
theorem Gamma.cdf_ok (g : Gamma) (x : Fl) (hx : Fl.lt 0 x) :
    ∃ y, g.cdf x = .ok y := by
  unfold Gamma.cdf
  rw [if_neg (not_not_intro hx)]
  split_ifs <;> exact ⟨_, rfl⟩

/-- Claim C8: the domain preconditions are enforced by panics carrying a
message naming the violated argument: `ln_beta` and `beta` panic precisely
when not both arguments are strictly positive (naming the offending one),
and `pdf`, `ln_pdf`, `cdf` panic precisely when not `x > 0`; when the
preconditions hold, no error value of any kind is produced. -/
theorem panic_contract (a b : ℝ) (g : Gamma) (x : Fl) :
    ((∃ e, ln_beta a b = .error e) ↔ ¬ (0 < a ∧ 0 < b)) ∧
    (¬ 0 < a → ln_beta a b = .error (.argMustBePositive "a")) ∧
    (0 < a → ¬ 0 < b → ln_beta a b = .error (.argMustBePositive "b")) ∧
    ((∃ e, beta a b = .error e) ↔ ¬ (0 < a ∧ 0 < b)) ∧
    ((∃ e, g.pdf x = .error e) ↔ ¬ Fl.lt 0 x) ∧
    (¬ Fl.lt 0 x → g.pdf x = .error (.argMustBePositive "x")) ∧
    ((∃ e, g.ln_pdf x = .error e) ↔ ¬ Fl.lt 0 x) ∧
    (¬ Fl.lt 0 x → g.ln_pdf x = .error (.argMustBePositive "x")) ∧
    ((∃ e, g.cdf x = .error e) ↔ ¬ Fl.lt 0 x) ∧
    (¬ Fl.lt 0 x → g.cdf x = .error (.argMustBePositive "x")) := by
  have hlb : ∀ a b : ℝ, 0 < a → 0 < b → ∃ y, ln_beta a b = .ok y := by
    intro a b ha hb
    unfold ln_beta
    rw [if_neg (not_not_intro ha), if_neg (not_not_intro hb)]
    exact ⟨_, rfl⟩
  have hlberr : ∀ a b : ℝ, ¬ (0 < a ∧ 0 < b) → ∃ e, ln_beta a b = .error e := by
    intro a b h
    unfold ln_beta
    by_cases ha : 0 < a
    · rw [if_neg (not_not_intro ha)]
      have hb : ¬ 0 < b := fun hb => h ⟨ha, hb⟩
      rw [if_pos hb]
      exact ⟨_, rfl⟩
    · rw [if_pos ha]
      exact ⟨_, rfl⟩
  refine ⟨⟨?_, fun h => hlberr a b h⟩, ?_, ?_, ⟨?_, ?_⟩, ⟨?_, ?_⟩, ?_, ⟨?_, ?_⟩, ?_, ⟨?_, ?_⟩, ?_⟩
  · rintro ⟨e, he⟩ ⟨ha, hb⟩
    obtain ⟨y, hy⟩ := hlb a b ha hb
    rw [hy] at he
    cases he
  · intro ha
    unfold ln_beta
    rw [if_pos ha]
  · intro ha hb
    unfold ln_beta
    rw [if_neg (not_not_intro ha), if_pos hb]
  · rintro ⟨e, he⟩ ⟨ha, hb⟩
    obtain ⟨y, hy⟩ := hlb a b ha hb
    unfold beta at he
    rw [hy] at he
    cases he
  · intro h
    obtain ⟨e, he⟩ := hlberr a b h
    exact ⟨e, by unfold beta; rw [he]; rfl⟩
  · rintro ⟨e, he⟩ hx
    obtain ⟨y, hy⟩ := Gamma.pdf_ok g x hx
    rw [hy] at he
    cases he
  · intro hx
    exact ⟨.argMustBePositive "x", by unfold Gamma.pdf; rw [if_pos hx]⟩
  · intro hx
    unfold Gamma.pdf
    rw [if_pos hx]
  · rintro ⟨e, he⟩ hx
    obtain ⟨y, hy⟩ := Gamma.ln_pdf_ok g x hx
    rw [hy] at he
    cases he
  · intro hx
    exact ⟨.argMustBePositive "x", by unfold Gamma.ln_pdf; rw [if_pos hx]⟩
  · intro hx
    unfold Gamma.ln_pdf
    rw [if_pos hx]
  · rintro ⟨e, he⟩ hx
    obtain ⟨y, hy⟩ := Gamma.cdf_ok g x hx
    rw [hy] at he
    cases he
  · intro hx
    exact ⟨.argMustBePositive "x", by unfold Gamma.cdf; rw [if_pos hx]⟩
  · intro hx
    unfold Gamma.cdf
    rw [if_pos hx]

/-- Witness for claim C8: concrete violated preconditions produce the
panic naming the offending argument. -/
theorem panic_contract_witness :
    ln_beta (-1) 1 = .error (.argMustBePositive "a") ∧
    Gamma.pdf ⟨Fl.fin 3, Fl.fin 1⟩ (Fl.fin 0) = .error (.argMustBePositive "x") ∧
    Gamma.cdf ⟨Fl.fin 3, Fl.fin 1⟩ (Fl.fin 0) = .error (.argMustBePositive "x") := by
  have h := panic_contract (-1) 1 ⟨Fl.fin 3, Fl.fin 1⟩ (Fl.fin 0)
  exact ⟨h.2.1 (by norm_num),
    h.2.2.2.2.2.1 (by norm_num [Fl.lt, Fl.zero_def]),
    h.2.2.2.2.2.2.2.2.2 (by norm_num [Fl.lt, Fl.zero_def])⟩

/-- Claim C3: for a valid distribution and `x > 0`, `pdf` follows the
branch priority of the source (degenerate infinity, infinite-rate zero,
exponential special case for shape 1, `exp(ln_pdf(x))` above shape 160,
general closed form), and `ln_pdf` computes the sum-of-logs form in the
general case. -/
theorem gamma_pdf_spec (shape rate x : Fl)
    (hs : Fl.lt 0 shape) (hr : Fl.lt 0 rate) (hx : Fl.lt 0 x) :
    (Fl.feq x shape ∧ Fl.feq rate Fl.pinf →
      Gamma.pdf ⟨shape, rate⟩ x = .ok Fl.pinf ∧
      Gamma.ln_pdf ⟨shape, rate⟩ x = .ok Fl.pinf) ∧
    (Fl.feq rate Fl.pinf ∧ ¬ Fl.feq x shape →
      Gamma.pdf ⟨shape, rate⟩ x = .ok 0) ∧
    (¬ Fl.feq rate Fl.pinf ∧ Fl.feq shape 1 →
      Gamma.pdf ⟨shape, rate⟩ x = .ok (rate * Fl.exp (-(rate * x)))) ∧
    (¬ Fl.feq rate Fl.pinf ∧ ¬ Fl.feq shape 1 ∧ Fl.lt (Fl.fin 160) shape →
      ∀ l, Gamma.ln_pdf ⟨shape, rate⟩ x = .ok l →
        Gamma.pdf ⟨shape, rate⟩ x = .ok (Fl.exp l)) ∧
    (¬ Fl.feq rate Fl.pinf ∧ ¬ Fl.feq shape 1 ∧ ¬ Fl.lt (Fl.fin 160) shape →
      Gamma.pdf ⟨shape, rate⟩ x =
        .ok (Fl.powf rate shape * Fl.powf x (shape - 1)
          * Fl.exp (-(rate * x)) / Fl.gammaFn shape)) ∧
    (¬ Fl.feq rate Fl.pinf ∧ ¬ Fl.feq shape 1 →
      Gamma.ln_pdf ⟨shape, rate⟩ x =
        .ok (shape * Fl.ln rate + (shape - 1) * Fl.ln x - rate * x
          - Fl.lnGamma shape)) := by
  have hx' : ¬ ¬ Fl.lt 0 x := not_not_intro hx
  refine ⟨?_, ?_, ?_, ?_, ?_, ?_⟩
  · rintro ⟨h1, h2⟩
    constructor
    · unfold Gamma.pdf
      rw [if_neg hx', if_pos (show Fl.feq x (Gamma.mk shape rate).shape ∧
        Fl.feq (Gamma.mk shape rate).rate Fl.pinf from ⟨h1, h2⟩)]
    · unfold Gamma.ln_pdf
      rw [if_neg hx', if_pos (show Fl.feq x (Gamma.mk shape rate).shape ∧
        Fl.feq (Gamma.mk shape rate).rate Fl.pinf from ⟨h1, h2⟩)]
  · rintro ⟨h2, h1⟩
    unfold Gamma.pdf
    rw [if_neg hx',
      if_neg (show ¬ (Fl.feq x (Gamma.mk shape rate).shape ∧
        Fl.feq (Gamma.mk shape rate).rate Fl.pinf) from fun hc => h1 hc.1),
      if_pos (show Fl.feq (Gamma.mk shape rate).rate Fl.pinf from h2)]
  · rintro ⟨h2, h1⟩
    unfold Gamma.pdf
    rw [if_neg hx',
      if_neg (show ¬ (Fl.feq x (Gamma.mk shape rate).shape ∧
        Fl.feq (Gamma.mk shape rate).rate Fl.pinf) from fun hc => h2 hc.2),
      if_neg (show ¬ Fl.feq (Gamma.mk shape rate).rate Fl.pinf from h2),
      if_pos (show Fl.feq (Gamma.mk shape rate).shape 1 from h1)]
  · rintro ⟨h2, h1, h160⟩ l hl
    unfold Gamma.pdf
    rw [if_neg hx',
      if_neg (show ¬ (Fl.feq x (Gamma.mk shape rate).shape ∧
        Fl.feq (Gamma.mk shape rate).rate Fl.pinf) from fun hc => h2 hc.2),
      if_neg (show ¬ Fl.feq (Gamma.mk shape rate).rate Fl.pinf from h2),
      if_neg (show ¬ Fl.feq (Gamma.mk shape rate).shape 1 from h1),
      if_pos (show Fl.lt (Fl.fin 160) (Gamma.mk shape rate).shape from h160),
      hl]
    rfl
  · rintro ⟨h2, h1, h160⟩
    unfold Gamma.pdf
    rw [if_neg hx',
      if_neg (show ¬ (Fl.feq x (Gamma.mk shape rate).shape ∧
        Fl.feq (Gamma.mk shape rate).rate Fl.pinf) from fun hc => h2 hc.2),
      if_neg (show ¬ Fl.feq (Gamma.mk shape rate).rate Fl.pinf from h2),
      if_neg (show ¬ Fl.feq (Gamma.mk shape rate).shape 1 from h1),
      if_neg (show ¬ Fl.lt (Fl.fin 160) (Gamma.mk shape rate).shape from h160)]
  · rintro ⟨h2, h1⟩
    unfold Gamma.ln_pdf
    rw [if_neg hx',
      if_neg (show ¬ (Fl.feq x (Gamma.mk shape rate).shape ∧
        Fl.feq (Gamma.mk shape rate).rate Fl.pinf) from fun hc => h2 hc.2),
      if_neg (show ¬ Fl.feq (Gamma.mk shape rate).rate Fl.pinf from h2),
      if_neg (show ¬ Fl.feq (Gamma.mk shape rate).shape 1 from h1)]

/-- Witness for claim C3 at shape 3, rate 1, x 2 (the general branch for
both density functions). -/
theorem gamma_pdf_spec_witness :
    Gamma.pdf ⟨Fl.fin 3, Fl.fin 1⟩ (Fl.fin 2) =
      .ok (Fl.powf (Fl.fin 1) (Fl.fin 3) * Fl.powf (Fl.fin 2) (Fl.fin 3 - 1)
        * Fl.exp (-(Fl.fin 1 * Fl.fin 2)) / Fl.gammaFn (Fl.fin 3)) ∧
    Gamma.ln_pdf ⟨Fl.fin 3, Fl.fin 1⟩ (Fl.fin 2) =
      .ok (Fl.fin 3 * Fl.ln (Fl.fin 1) + (Fl.fin 3 - 1) * Fl.ln (Fl.fin 2)
        - Fl.fin 1 * Fl.fin 2 - Fl.lnGamma (Fl.fin 3)) := by
  have h := gamma_pdf_spec (Fl.fin 3) (Fl.fin 1) (Fl.fin 2)
    (by norm_num [Fl.lt, Fl.zero_def]) (by norm_num [Fl.lt, Fl.zero_def])
    (by norm_num [Fl.lt, Fl.zero_def])
  exact ⟨h.2.2.2.2.1 ⟨by simp [Fl.feq], by norm_num [Fl.feq, Fl.one_def],
      by norm_num [Fl.lt]⟩,
    h.2.2.2.2.2 ⟨by simp [Fl.feq], by norm_num [Fl.feq, Fl.one_def]⟩⟩

/-- Claim C10: for every valid distribution and `x > 0`, the two density
evaluation paths agree branch by branch in exact extended-real arithmetic:
`pdf(x) = exp(ln_pdf(x))`, with `exp(+inf) = +inf` and `exp(-inf) = 0` on
the degenerate branches, given `gamma(s) = exp(ln_gamma(s))`. -/
theorem gamma_pdf_exp_ln_pdf (shape rate x : Fl)
    (hs : Fl.lt 0 shape) (hr : Fl.lt 0 rate) (hx : Fl.lt 0 x) :
    Gamma.pdf ⟨shape, rate⟩ x = (Gamma.ln_pdf ⟨shape, rate⟩ x).map Fl.exp := by
  have hx' : ¬ ¬ Fl.lt 0 x := not_not_intro hx
  by_cases c1 : Fl.feq x shape ∧ Fl.feq rate Fl.pinf
  · have hpdf : Gamma.pdf ⟨shape, rate⟩ x = .ok Fl.pinf := by
      unfold Gamma.pdf
      rw [if_neg hx', if_pos (show Fl.feq x (Gamma.mk shape rate).shape ∧
        Fl.feq (Gamma.mk shape rate).rate Fl.pinf from c1)]
    have hln : Gamma.ln_pdf ⟨shape, rate⟩ x = .ok Fl.pinf := by
      unfold Gamma.ln_pdf
      rw [if_neg hx', if_pos (show Fl.feq x (Gamma.mk shape rate).shape ∧
        Fl.feq (Gamma.mk shape rate).rate Fl.pinf from c1)]
    rw [hpdf, hln]
    rfl
  · have hc1 : ¬ (Fl.feq x (Gamma.mk shape rate).shape ∧
        Fl.feq (Gamma.mk shape rate).rate Fl.pinf) := c1
    by_cases c2 : Fl.feq rate Fl.pinf
    · have hpdf : Gamma.pdf ⟨shape, rate⟩ x = .ok 0 := by
        unfold Gamma.pdf
        rw [if_neg hx', if_neg hc1,
          if_pos (show Fl.feq (Gamma.mk shape rate).rate Fl.pinf from c2)]
      have hln : Gamma.ln_pdf ⟨shape, rate⟩ x = .ok Fl.ninf := by
        unfold Gamma.ln_pdf
        rw [if_neg hx', if_neg hc1,
          if_pos (show Fl.feq (Gamma.mk shape rate).rate Fl.pinf from c2)]
      rw [hpdf, hln]
      rfl
    · have hc2 : ¬ Fl.feq (Gamma.mk shape rate).rate Fl.pinf := c2
      rcases Fl.pos_elim rate hr with hrp | ⟨ρ, hrfl, hρ⟩
      · exact absurd (show Fl.feq (Gamma.mk shape rate).rate Fl.pinf by
          rw [hrp]; trivial) hc2
      subst hrfl
      by_cases c3 : Fl.feq shape 1
      · have hpdf : Gamma.pdf ⟨shape, Fl.fin ρ⟩ x =
            .ok (Fl.fin ρ * Fl.exp (-(Fl.fin ρ * x))) := by
          unfold Gamma.pdf
          rw [if_neg hx', if_neg hc1, if_neg hc2,
            if_pos (show Fl.feq (Gamma.mk shape (Fl.fin ρ)).shape 1 from c3)]
        have hln : Gamma.ln_pdf ⟨shape, Fl.fin ρ⟩ x =
            .ok (Fl.ln (Fl.fin ρ) - Fl.fin ρ * x) := by
          unfold Gamma.ln_pdf
          rw [if_neg hx', if_neg hc1, if_neg hc2,
            if_pos (show Fl.feq (Gamma.mk shape (Fl.fin ρ)).shape 1 from c3)]
        rw [hpdf, hln]
        rcases Fl.pos_elim x hx with hxp | ⟨ξ, hxfl, hξ⟩
        · subst hxp
          simp only [Fl.mul_def, Fl.sub_def, Fl.neg_def, Fl.mul, Fl.neg,
            Fl.exp, Fl.ln, Fl.add, hρ, if_pos, if_true, Except.map]
          norm_num
        · subst hxfl
          simp only [Fl.mul_def, Fl.sub_def, Fl.neg_def, Fl.mul, Fl.neg,
            Fl.exp, Fl.ln, Fl.add, hρ, if_pos, if_true, Except.map]
          congr 1
          rw [Real.exp_add, Real.exp_log hρ]
      · have hc3 : ¬ Fl.feq (Gamma.mk shape (Fl.fin ρ)).shape 1 := c3
        by_cases c4 : Fl.lt (Fl.fin 160) shape
        · have hpdf : Gamma.pdf ⟨shape, Fl.fin ρ⟩ x =
              (Gamma.ln_pdf ⟨shape, Fl.fin ρ⟩ x).map Fl.exp := by
            unfold Gamma.pdf
            rw [if_neg hx', if_neg hc1, if_neg hc2, if_neg hc3,
              if_pos (show Fl.lt (Fl.fin 160) (Gamma.mk shape (Fl.fin ρ)).shape
                from c4)]
          exact hpdf
        · have hc4 : ¬ Fl.lt (Fl.fin 160) (Gamma.mk shape (Fl.fin ρ)).shape := c4
          rcases Fl.pos_elim shape hs with hsp | ⟨s, hsfl, hsr⟩
          · exact absurd (show Fl.lt (Fl.fin 160) shape by
              rw [hsp]; trivial) c4
          subst hsfl
          have hsne1 : s ≠ 1 := by
            intro h
            exact c3 (show Fl.feq (Fl.fin s) 1 by rw [h]; rfl)
          have hpdf : Gamma.pdf ⟨Fl.fin s, Fl.fin ρ⟩ x =
              .ok (Fl.powf (Fl.fin ρ) (Fl.fin s) * Fl.powf x (Fl.fin s - 1)
                * Fl.exp (-(Fl.fin ρ * x)) / Fl.gammaFn (Fl.fin s)) := by
            unfold Gamma.pdf
            rw [if_neg hx', if_neg hc1, if_neg hc2, if_neg hc3, if_neg hc4]
          have hln : Gamma.ln_pdf ⟨Fl.fin s, Fl.fin ρ⟩ x =
              .ok (Fl.fin s * Fl.ln (Fl.fin ρ) + (Fl.fin s - 1) * Fl.ln x
                - Fl.fin ρ * x - Fl.lnGamma (Fl.fin s)) := by
            unfold Gamma.ln_pdf
            rw [if_neg hx', if_neg hc1, if_neg hc2, if_neg hc3]
          rw [hpdf, hln]
          rcases Fl.pos_elim x hx with hxp | ⟨ξ, hxfl, hξ⟩
          · subst hxp
            rcases lt_or_gt_of_ne (sub_ne_zero_of_ne hsne1) with hneg | hpos
            · have hneg' : s + -1 < 0 := by linarith [hneg]
              have hnlt : ¬ (0 < s + -1) := by linarith
              have hne0 : ¬ (s + -1 = 0) := by intro h; linarith
              simp [Fl.add_def, Fl.mul_def, Fl.sub_def, Fl.neg_def, Fl.div_def,
                Fl.one_def, Fl.mul, Fl.neg, Fl.add, Fl.div, Fl.exp, Fl.ln,
                Fl.powf, Fl.lnGamma, Fl.gammaFn, hρ, hneg', hnlt, hne0,
                Except.map, Real.exp_ne_zero]
            · have hpos' : 0 < s + -1 := by linarith [hpos]
              have hrs : (0:ℝ) < ρ ^ s := Real.rpow_pos_of_pos hρ s
              simp [Fl.add_def, Fl.mul_def, Fl.sub_def, Fl.neg_def, Fl.div_def,
                Fl.one_def, Fl.mul, Fl.neg, Fl.add, Fl.div, Fl.exp, Fl.ln,
                Fl.powf, Fl.lnGamma, Fl.gammaFn, hρ, hpos', hrs,
                not_lt.mpr (le_of_lt hrs), Except.map, Real.exp_ne_zero]
          · subst hxfl
            simp only [Fl.add_def, Fl.mul_def, Fl.sub_def, Fl.neg_def,
              Fl.div_def, Fl.one_def, Fl.mul, Fl.neg, Fl.add, Fl.div, Fl.exp,
              Fl.ln, Fl.powf, Fl.lnGamma, Fl.gammaFn, hρ, hξ,
              if_true, if_false, Except.map, Real.exp_ne_zero]
            congr 1
            rw [Real.rpow_def_of_pos hρ, mul_comm (Real.log ρ) s,
              Real.rpow_def_of_pos hξ, mul_comm (Real.log ξ) (s + -1)]
            rw [← Real.exp_add, ← Real.exp_add]
            rw [div_eq_mul_inv, ← Real.exp_neg, ← Real.exp_add]

/-- Witness for claim C10 at shape 3, rate 1, x 2. -/
theorem gamma_pdf_exp_ln_pdf_witness :
    Gamma.pdf ⟨Fl.fin 3, Fl.fin 1⟩ (Fl.fin 2) =
      (Gamma.ln_pdf ⟨Fl.fin 3, Fl.fin 1⟩ (Fl.fin 2)).map Fl.exp :=
  gamma_pdf_exp_ln_pdf (Fl.fin 3) (Fl.fin 1) (Fl.fin 2)
    (by norm_num [Fl.lt, Fl.zero_def]) (by norm_num [Fl.lt, Fl.zero_def])
    (by norm_num [Fl.lt, Fl.zero_def])

/-- Unfolding equation of the continued-fraction loop at positive fuel. -/
theorem betaCfRun_succ (eps fpmin a b x : ℝ) (fuel m : ℕ) (s : BetaCf) :
    betaCfRun eps fpmin a b x (fuel + 1) m s =
      if |(betaCfStep fpmin a b x m s).del - 1| ≤ eps
      then (1, betaCfStep fpmin a b x m s)
      else ((betaCfRun eps fpmin a b x fuel (m + 1)
              (betaCfStep fpmin a b x m s)).1 + 1,
            (betaCfRun eps fpmin a b x fuel (m + 1)
              (betaCfStep fpmin a b x m s)).2) := rfl

/-- The number of iterations the loop executes never exceeds its fuel. -/
theorem betaCfRun_count_le (eps fpmin a b x : ℝ) :
    ∀ (fuel m : ℕ) (s : BetaCf),
      (betaCfRun eps fpmin a b x fuel m s).1 ≤ fuel := by
  intro fuel
  induction fuel with
  | zero => intro m s; simp [betaCfRun]
  | succ n ih =>
    intro m s
    rw [betaCfRun_succ]
    split_ifs
    · simp
    · simpa using Nat.succ_le_succ (ih (m + 1) (betaCfStep fpmin a b x m s))

/-- If the loop stops strictly before its fuel is exhausted, the last
fractional update was within the convergence threshold. -/
theorem betaCfRun_early (eps fpmin a b x : ℝ) :
    ∀ (fuel m : ℕ) (s : BetaCf),
      (betaCfRun eps fpmin a b x fuel m s).1 < fuel →
      |(betaCfRun eps fpmin a b x fuel m s).2.del - 1| ≤ eps := by
  intro fuel
  induction fuel with
  | zero => intro m s h; simp [betaCfRun] at h
  | succ n ih =>
    intro m s
    rw [betaCfRun_succ]
    split_ifs with hdel
    · intro _; exact hdel
    · intro hlt
      exact ih (m + 1) (betaCfStep fpmin a b x m s) (by omega)

/-- Claim C6: on its asserted domain `beta_reg` always terminates with a
plain value: the continued-fraction loop executes at most 140 iterations,
stops early exactly on the `|del - 1| <= eps` test, and when the cap is hit
the current estimate (`bt * h / a`, or `1 - bt * h / a` under the symmetry
transform) is returned with no non-convergence signal. -/
theorem beta_reg_terminates (eps fpmin a b x : ℝ)
    (ha : 0 ≤ a) (hb : 0 ≤ b) (hx0 : 0 ≤ x) (hx1 : x ≤ 1) :
    ∃ n st, betaRegCore eps fpmin (betaRegSwap a b x).1 (betaRegSwap a b x).2.1
        (betaRegSwap a b x).2.2 = (n, st) ∧
      n ≤ 140 ∧
      (n < 140 → |st.del - 1| ≤ eps) ∧
      beta_reg eps fpmin a b x =
        .ok (if (a + 1) / (a + b + 2) ≤ x
          then 1 - betaRegBt a b x * st.h / (betaRegSwap a b x).1
          else betaRegBt a b x * st.h / (betaRegSwap a b x).1) := by
  refine ⟨(betaRegCore eps fpmin (betaRegSwap a b x).1 (betaRegSwap a b x).2.1
      (betaRegSwap a b x).2.2).1,
    (betaRegCore eps fpmin (betaRegSwap a b x).1 (betaRegSwap a b x).2.1
      (betaRegSwap a b x).2.2).2, rfl, ?_, ?_, ?_⟩
  · exact betaCfRun_count_le eps fpmin _ _ _ 140 1 _
  · exact betaCfRun_early eps fpmin _ _ _ 140 1 _
  · unfold beta_reg
    rw [if_neg (not_not_intro ha), if_neg (not_not_intro hb),
      if_neg (not_not_intro ⟨hx0, hx1⟩)]
    rw [apply_ite Except.ok]

/-- Witness for claim C6 at `eps = 1`, `fpmin = 1`, `a = b = 1`,
`x = 1/2`. -/
theorem beta_reg_terminates_witness :
    ∃ n st, betaRegCore 1 1 (betaRegSwap 1 1 (1/2)).1 (betaRegSwap 1 1 (1/2)).2.1
        (betaRegSwap 1 1 (1/2)).2.2 = (n, st) ∧
      n ≤ 140 ∧
      (n < 140 → |st.del - 1| ≤ 1) ∧
      beta_reg 1 1 1 1 (1/2) =
        .ok (if ((1:ℝ) + 1) / (1 + 1 + 2) ≤ 1/2
          then 1 - betaRegBt 1 1 (1/2) * st.h / (betaRegSwap 1 1 (1/2)).1
          else betaRegBt 1 1 (1/2) * st.h / (betaRegSwap 1 1 (1/2)).1) :=
  beta_reg_terminates 1 1 1 1 (1/2) (by norm_num) (by norm_num) (by norm_num)
    (by norm_num)

/-- The `bt` prefactor vanishes at both endpoints. -/
theorem betaRegBt_x0 (a b : ℝ) : betaRegBt a b 0 = 0 := by
  unfold betaRegBt
  rw [if_pos (Or.inl rfl)]

/-- The `bt` prefactor vanishes at `x = 1` as well. -/
theorem betaRegBt_x1 (a b : ℝ) : betaRegBt a b 1 = 0 := by
  unfold betaRegBt
  rw [if_pos (Or.inr rfl)]

/-- The initial Lentz state at `x = 0` is the unit state. -/
theorem betaRegInit_x0 (fpmin a b : ℝ) (hfp : fpmin < 1) :
    betaRegInit fpmin a b 0 = ⟨1, 1, 1, 0⟩ := by
  unfold betaRegInit floorSmall
  have h1 : (1:ℝ) - (a + b) * 0 / (a + 1) = 1 := by norm_num
  rw [h1, abs_one, if_neg (not_lt_of_gt hfp)]
  norm_num

/-- One continued-fraction step at `x = 0` from the unit state converges
immediately: all update terms vanish and `del = 1`. -/
theorem betaCfStep_x0 (fpmin a b : ℝ) (hfp : fpmin < 1) :
    betaCfStep fpmin a b 0 1 ⟨1, 1, 1, 0⟩ = ⟨1, 1, 1, 1⟩ := by
  unfold betaCfStep floorSmall
  have h1 : ¬ (1:ℝ) < fpmin := not_lt_of_gt hfp
  norm_num [h1]

/-- The continued-fraction run of `beta_reg` at `x = 0` stops after the
first iteration in the unit state. -/
theorem betaRegCore_x0 (eps fpmin a b : ℝ) (heps : 0 ≤ eps) (hfp : fpmin < 1) :
    betaRegCore eps fpmin a b 0 = (1, ⟨1, 1, 1, 1⟩) := by
  unfold betaRegCore
  rw [betaRegInit_x0 fpmin a b hfp, show (140:ℕ) = 139 + 1 by norm_num,
    betaCfRun_succ, betaCfStep_x0 fpmin a b hfp]
  rw [if_pos (show |(BetaCf.mk 1 1 1 1).del - 1| ≤ eps by simpa using heps)]

/-- Claim C7: for all valid `a > 0`, `b > 0` (and the floating-point
constants as in the source, `0 <= eps` and `fpmin < 1`), `beta_reg` returns
exactly 0 at `x = 0` and exactly 1 at `x = 1`. -/
theorem beta_reg_endpoints (eps fpmin a b : ℝ)
    (heps : 0 ≤ eps) (hfp : fpmin < 1) (ha : 0 < a) (hb : 0 < b) :
    beta_reg eps fpmin a b 0 = .ok 0 ∧ beta_reg eps fpmin a b 1 = .ok 1 := by
  constructor
  · have hq0 : ¬ (a + 1) / (a + b + 2) ≤ 0 :=
      not_le.mpr (div_pos (by linarith) (by linarith))
    have hswap : betaRegSwap a b 0 = (a, b, 0) := by
      unfold betaRegSwap
      rw [if_neg hq0]
    unfold beta_reg
    rw [if_neg (not_not_intro ha.le), if_neg (not_not_intro hb.le),
      if_neg (not_not_intro ⟨le_refl (0:ℝ), zero_le_one⟩)]
    simp only [hswap]
    rw [betaRegCore_x0 eps fpmin a b heps hfp]
    rw [if_neg hq0, betaRegBt_x0]
    norm_num
  · have hq1 : (a + 1) / (a + b + 2) ≤ 1 :=
      (div_le_one (by linarith)).mpr (by linarith)
    have hswap : betaRegSwap a b 1 = (b, a, 0) := by
      unfold betaRegSwap
      rw [if_pos hq1]
      norm_num
    unfold beta_reg
    rw [if_neg (not_not_intro ha.le), if_neg (not_not_intro hb.le),
      if_neg (not_not_intro ⟨zero_le_one, le_refl (1:ℝ)⟩)]
    simp only [hswap]
    rw [betaRegCore_x0 eps fpmin b a heps hfp]
    rw [if_pos hq1, betaRegBt_x1]
    norm_num

/-- Witness for claim C7 at `eps = 1/1000`, `fpmin = 1/1000`, `a = 1`,
`b = 2`. -/
theorem beta_reg_endpoints_witness :
    beta_reg (1/1000) (1/1000) 1 2 0 = .ok 0 ∧
    beta_reg (1/1000) (1/1000) 1 2 1 = .ok 1 :=
  beta_reg_endpoints (1/1000) (1/1000) 1 2 (by norm_num) (by norm_num)
    (by norm_num) (by norm_num)

theorem c1s_pos : 0 < c1s := Real.rpow_pos_of_pos two_pos _

theorem c1s_cube : c1s * c1s * c1s = 1/2 := by
  have h : c1s * c1s * c1s = c1s ^ (3:ℕ) := by ring
  rw [h, ← Real.rpow_natCast c1s 3]
  unfold c1s
  rw [← Real.rpow_mul (by norm_num : (0:ℝ) ≤ 2)]
  rw [show (-(1/3) * ((3:ℕ):ℝ)) = -1 by push_cast; ring]
  rw [Real.rpow_neg_one]
  norm_num

theorem c1s_lb : 0.7937 < c1s := by
  by_contra h
  push_neg at h
  have h3 : c1s ^ (3:ℕ) ≤ (0.7937:ℝ) ^ (3:ℕ) :=
    pow_le_pow_left c1s_pos.le h 3
  have hc : c1s ^ (3:ℕ) = 1/2 := by rw [← c1s_cube]; ring
  rw [hc] at h3
  norm_num at h3

theorem c1s_ub : c1s < 0.794 := by
  by_contra h
  push_neg at h
  have h3 : (0.794:ℝ) ^ (3:ℕ) ≤ c1s ^ (3:ℕ) :=
    pow_le_pow_left (by norm_num) h 3
  have hc : c1s ^ (3:ℕ) = 1/2 := by rw [← c1s_cube]; ring
  rw [hc] at h3
  norm_num at h3

theorem c1x_lb : 0.7638 < c1x := by
  unfold c1x
  have h1 : 0.206 < 1 - c1s := by linarith [c1s_ub]
  nlinarith [h1]

theorem c1x_ub : c1x < 0.76608 := by
  unfold c1x
  have h1 : 1 - c1s < 0.2063 := by linarith [c1s_lb]
  have h2 : 0 < 1 - c1s := by linarith [c1s_ub]
  nlinarith [h1, h2]

theorem c1u_pos : 0 < c1u := Real.exp_pos _

theorem c1u_lb : 0.999 ≤ c1u := by
  have h := Real.add_one_le_exp (-(1/1000) : ℝ)
  unfold c1u
  linarith

theorem c1u_log : Real.log c1u = -(1/1000) := Real.log_exp _

theorem log_half : Real.log (1/2 : ℝ) = - Real.log 2 := by
  rw [one_div, Real.log_inv]

/-- The squeeze test fails at the claim C1 input. -/
theorem c1_squeeze_fails : ¬ mtSqueeze c1x c1u := by
  unfold mtSqueeze
  have hx := c1x_lb
  have hx2 : 0.583 < c1x * c1x := by nlinarith [c1x_lb]
  have := c1u_lb
  intro h
  nlinarith [h]

/-- The acceptance test as the spec words it rejects the claim C1 input. -/
theorem c1_spec_rejects : ¬ mtAcceptSpec 2 (1/2) c1x c1u := by
  unfold mtAcceptSpec
  rw [c1u_log, log_half]
  have hlog2 : 0.6931471803 < Real.log 2 := Real.log_two_gt_d9
  have hx := c1x_ub
  intro h
  nlinarith [h]

theorem sqrt18_ne : Real.sqrt 18 ≠ 0 := ne_of_gt (Real.sqrt_pos.mpr (by norm_num))

/-- The redraw-loop candidate at the claim C1 input is exactly `2^(-1/3)`. -/
theorem c1v_eq : (1:ℝ) + 1 / Real.sqrt 18 * c1n = c1s := by
  unfold c1n
  field_simp

/-- The squared normal draw at the claim C1 input. -/
theorem c1x_eq : c1n * c1n = c1x := by
  unfold c1n c1x
  rw [show (c1s - 1) * Real.sqrt 18 * ((c1s - 1) * Real.sqrt 18) =
    (c1s - 1) * (c1s - 1) * (Real.sqrt 18 * Real.sqrt 18) by ring,
    Real.mul_self_sqrt (by norm_num : (0:ℝ) ≤ 18)]
  ring

/-- The inner redraw loop accepts the first normal draw of the claim C1
input (its candidate `v = 2^(-1/3)` is positive). -/
theorem c1_drawV : drawV (Fl.fin (1 / Real.sqrt 18)) 1 c1rng =
    some (Fl.fin c1n, Fl.fin c1s, ⟨fun _ => c1n, fun _ => c1u, 1, 0⟩) := by
  have hle : ¬ Fl.le (Fl.fin c1s) 0 := by
    simp only [Fl.le, Fl.zero_def]
    exact not_le.mpr c1s_pos
  show drawV (Fl.fin (1 / Real.sqrt 18)) (0+1) c1rng = _
  simp only [drawV, Rng.nextNormal, c1rng, zero_add]
  simp only [Fl.one_def, Fl.add_def, Fl.mul_def, Fl.mul, Fl.add, c1v_eq]
  rw [if_neg hle]

/-- Evaluation of the code at the claim C1 failing input: the sampler
accepts the first candidate through the second acceptance test and returns
`afix * d * v / rate = 1`, consuming one normal and one uniform draw. -/
theorem c1_sample : sample_unchecked 1 1 c1rng (Fl.fin (7/3)) (Fl.fin 1) =
    some (Fl.fin 1, ⟨fun _ => c1n, fun _ => c1u, 1, 1⟩) := by
  have hrate : ¬ Fl.feq (Fl.fin 1) Fl.pinf := by simp [Fl.feq]
  have hsh : ¬ Fl.lt (Fl.fin (7/3)) 1 := by norm_num [Fl.lt, Fl.one_def]
  unfold sample_unchecked
  rw [if_neg hrate, if_neg hsh, if_neg hsh]
  have hd : Fl.fin (7/3) - Fl.fin (1/3) = Fl.fin 2 := by
    simp only [Fl.sub_def, Fl.neg, Fl.add]
    norm_num
  have hc : (1:Fl) / Fl.sqrt (Fl.fin 9 * Fl.fin 2) = Fl.fin (1 / Real.sqrt 18) := by
    simp only [Fl.one_def, Fl.div_def, Fl.mul_def, Fl.mul]
    norm_num [Fl.sqrt, Fl.div, sqrt18_ne]
  simp only [hd, hc]
  show mtLoop (Fl.fin 1) 1 (Fl.fin 2) (Fl.fin (1 / Real.sqrt 18)) (0+1) 1 c1rng = _
  simp only [mtLoop]
  rw [c1_drawV]
  have hhalf : (0:ℝ) < 1/2 := by norm_num
  simp only [Rng.nextUniform, zero_add, Fl.one_def, Fl.add_def, Fl.sub_def,
    Fl.neg_def, Fl.mul_def, Fl.div_def, Fl.mul, Fl.add, Fl.neg, Fl.ln,
    c1u_pos, hhalf, if_true, c1s_cube, c1x_eq, Except.map]
  have hsq : ¬ Fl.lt (Fl.fin c1u) (Fl.fin (1 + -(331/10000 * c1x * c1x))) := by
    simp only [Fl.lt]
    have h := c1_squeeze_fails
    unfold mtSqueeze at h
    intro hcon
    exact h (by linarith)
  rw [if_neg hsq]
  have hacc : Fl.lt (Fl.fin (Real.log c1u))
      (Fl.fin (1/2 * c1x + 2 * (1 + -(1/2) + -Real.log (1/2)))) := by
    simp only [Fl.lt]
    rw [c1u_log, log_half]
    have hlog2 : 0 < Real.log 2 := Real.log_pos (by norm_num)
    have hx := c1x_lb
    linarith
  rw [if_pos hacc]
  norm_num [Fl.mul, Fl.div]

/-- Claim C1 is violated by the code: at the concrete input of `c1rng`
(shape `7/3`, rate `1`), the squeeze test fails and the exact
Marsaglia-Tsang acceptance test of the spec, `ln u < 0.5 x + d (1 - v +
ln v)`, rejects the candidate, yet the code accepts it and returns the
candidate `1`, because the source computes `d * (1 - v - ln(v))` with the
sign of `ln(v)` flipped. -/
theorem c1_acceptance_sign_bug :
    sample_unchecked 1 1 c1rng (Fl.fin (7/3)) (Fl.fin 1) =
      some (Fl.fin 1, ⟨fun _ => c1n, fun _ => c1u, 1, 1⟩) ∧
    ¬ mtSqueeze c1x c1u ∧
    ¬ mtAcceptSpec 2 (1/2) c1x c1u :=
  ⟨c1_sample, c1_squeeze_fails, c1_spec_rejects⟩

end
